import Mathlib

/-!
Verification development for the Cassandra trading-strategy core.

The Python sources are embedded shallowly over exact rationals:

* `src/backtester.py` (`Backtester.run_backtest`,
  `Backtester.calculate_performance_metrics`) — namespaces `Backtester`
  and `Metrics`;
* `src/portfolio_construction.py` (`generate_target_portfolio` and its
  helpers) — namespace `Portfolio`;
* `src/modeling.py` (`WalkForwardModel.generate_predictions`, the inner
  per-asset walk-forward loop) — namespace `WalkForward`.

Floating-point arithmetic is idealised as `ℚ`; a pandas `NaN` cell is an
`Option ℚ` that is `none`.  Library functions that are not part of this
repository (`np.sqrt`, `np.tanh`, the real power used for CAGR, and the
fitted `RandomForestClassifier`, which is a deterministic function of its
training slice and the queried feature row because `random_state` is
fixed) appear as explicit function parameters of the embedded inputs.
-/

namespace Cassandra

/-! ## Backtester (`src/backtester.py`, `Backtester.run_backtest`)

The simulator receives the price table restricted to the aligned asset
list (columns `Fin m`, the price index being `0, 1, ...`) and the target
weight matrix already reindexed onto that price index: a missing cell of
the reindexed matrix is `none`, a date absent from the weight matrix is a
row of `none`s. -/

namespace Backtester

structure BTInput (m : ℕ) where
  /-- `prices_df[self.asset_list]`, date `t`, asset `a`. -/
  price : ℕ → Fin m → ℚ
  /-- `self.target_weights[self.asset_list].reindex(returns.index)`:
  `none` is a NaN cell. -/
  tw : ℕ → Fin m → Option ℚ
  /-- `transaction_cost_bps` constructor argument. -/
  tcBps : ℚ
  /-- `slippage_bps` (after the `config.SLIPPAGE_BPS` default, 0, has
  been resolved). -/
  slBps : ℚ

variable {m : ℕ}

/-- `self.transaction_cost = float(transaction_cost_bps) / 10000.0`. -/
def tc (B : BTInput m) : ℚ := B.tcBps / 10000

/-- `self.slippage = float(slippage_bps) / 10000.0`. -/
def sl (B : BTInput m) : ℚ := B.slBps / 10000

/-- `returns = self.prices[self.asset_list].pct_change().fillna(0)`:
the leading NaN row of `pct_change` becomes 0. -/
def ret (B : BTInput m) (t : ℕ) (a : Fin m) : ℚ :=
  if t = 0 then 0 else B.price t a / B.price (t - 1) a - 1

/-- `initial_nan_mask = weights.isna().all(axis=1)` at date `t`. -/
def allMissing (B : BTInput m) (t : ℕ) : Bool :=
  (List.finRange m).all fun a => (B.tw t a).isNone

/-- `weights.loc[initial_nan_mask] = equal_weight` with
`equal_weight = 1.0 / len(self.asset_list)`: every row that is entirely
NaN (the code's mask is not restricted to leading rows) is replaced by
the equal-weight row. -/
def equalWeightFill (B : BTInput m) (t : ℕ) (a : Fin m) : Option ℚ :=
  if allMissing B t then some (1 / (m : ℚ)) else B.tw t a

/-- Column-wise forward fill: the value of `f.ffill()` at position `t`. -/
def ffillAt (f : ℕ → Option ℚ) : ℕ → Option ℚ
  | 0 => f 0
  | t + 1 =>
    match f (t + 1) with
    | some x => some x
    | none => ffillAt f t

/-- `weights = weights.fillna(method='ffill').fillna(0)` applied after the
equal-weight fill: the weight row actually used on date `t`. -/
def weightsFilled (B : BTInput m) (t : ℕ) (a : Fin m) : ℚ :=
  (ffillAt (fun s => equalWeightFill B s a) t).getD 0

/-- `prev_weights` entering the loop body for date `t`: the all-zero
series `pd.Series(0.0, index=self.asset_list)` before the first date,
afterwards the previous date's target row (`prev_weights = target_w`). -/
def heldW (B : BTInput m) : ℕ → Fin m → ℚ
  | 0 => fun _ => 0
  | t + 1 => weightsFilled B t

/-- `trades = (target_w - prev_weights).abs().sum() / 2.0`, the value
recorded in `turnover.loc[t]`. -/
def turnover (B : BTInput m) (t : ℕ) : ℚ :=
  (∑ a, |weightsFilled B t a - heldW B t a|) / 2

/-- `gross_return = (prev_weights * returns.loc[t]).sum()`. -/
def grossReturn (B : BTInput m) (t : ℕ) : ℚ :=
  ∑ a, heldW B t a * ret B t a

/-- `net_return = gross_return - cost - slippage_cost` with
`cost = trades * self.transaction_cost` and
`slippage_cost = trades * self.slippage`; recorded in
`portfolio_returns.loc[t]`. -/
def netReturn (B : BTInput m) (t : ℕ) : ℚ :=
  grossReturn B t - turnover B t * tc B - turnover B t * sl B

/-- Turnover is a scaled sum of absolute values, hence nonnegative. -/
theorem turnover_nonneg (B : BTInput m) (t : ℕ) : 0 ≤ turnover B t := by
  have h : 0 ≤ ∑ a, |weightsFilled B t a - heldW B t a| :=
    Finset.sum_nonneg fun a _ => abs_nonneg _
  have := div_nonneg h (by norm_num : (0 : ℚ) ≤ 2)
  simpa [turnover] using this

end Backtester

end Cassandra

namespace Cassandra

open Backtester

/-- Claim C3: on every date of `run_backtest` the recorded net return is
the gross return minus the transaction cost minus the slippage cost,
where the gross return is the dot product of the previously held weights
with today's asset returns and each cost is the day's turnover times the
respective decimal rate; when both rates are 0 the net return equals the
gross return exactly. -/
theorem net_return_decomposition {m : ℕ} (B : BTInput m) (t : ℕ) :
    netReturn B t =
      (∑ a, heldW B t a * ret B t a)
        - turnover B t * (B.tcBps / 10000)
        - turnover B t * (B.slBps / 10000)
    ∧ (B.tcBps = 0 → B.slBps = 0 → netReturn B t = grossReturn B t) := by
  constructor
  · rfl
  · intro h1 h2
    simp [netReturn, tc, sl, h1, h2]

/-- Witness for C3 at a concrete one-asset three-day input. -/
theorem net_return_decomposition_witness :
    let B : BTInput 1 :=
      ⟨fun t _ => (t : ℚ) + 1, fun _ _ => some 1, 0, 0⟩
    netReturn B 1 =
      (∑ a, heldW B 1 a * ret B 1 a)
        - turnover B 1 * (B.tcBps / 10000)
        - turnover B 1 * (B.slBps / 10000)
    ∧ (B.tcBps = 0 → B.slBps = 0 → netReturn B 1 = grossReturn B 1) :=
  net_return_decomposition _ 1

/-- Claim C4: on every date the recorded turnover is half the L1 distance
between the day's target weight row and the previously held weights; in
particular it is nonnegative, and it is 0 whenever the target row equals
the held row exactly. -/
theorem turnover_half_l1 {m : ℕ} (B : BTInput m) (t : ℕ) :
    turnover B t = (1 / 2) * ∑ a, |weightsFilled B t a - heldW B t a|
    ∧ 0 ≤ turnover B t
    ∧ (weightsFilled B t = heldW B t → turnover B t = 0) := by
  refine ⟨by rw [turnover]; ring, turnover_nonneg B t, ?_⟩
  intro h
  simp [turnover, h]

/-- Witness for C4 at a concrete one-asset input. -/
theorem turnover_half_l1_witness :
    let B : BTInput 1 :=
      ⟨fun _ _ => 1, fun _ _ => some (1 / 2), 5, 0⟩
    turnover B 1 = (1 / 2) * ∑ a, |weightsFilled B 1 a - heldW B 1 a|
    ∧ 0 ≤ turnover B 1
    ∧ (weightsFilled B 1 = heldW B 1 → turnover B 1 = 0) :=
  turnover_half_l1 _ 1

/-- Claim C9: the held position of `run_backtest` starts all-zero, so the
first date's gross return is 0 and its net return is minus that date's
turnover times the sum of the two decimal cost rates; with nonnegative
rates the first day's net return is never positive. -/
theorem first_day_pure_cost {m : ℕ} (B : BTInput m)
    (h1 : 0 ≤ B.tcBps) (h2 : 0 ≤ B.slBps) :
    grossReturn B 0 = 0
    ∧ netReturn B 0 = -(turnover B 0 * (tc B + sl B))
    ∧ netReturn B 0 ≤ 0 := by
  have hg : grossReturn B 0 = 0 := by
    simp [grossReturn, heldW]
  have hn : netReturn B 0 = -(turnover B 0 * (tc B + sl B)) := by
    rw [netReturn, hg]; ring
  refine ⟨hg, hn, ?_⟩
  rw [hn]
  have hturn : 0 ≤ turnover B 0 := turnover_nonneg B 0
  have hrates : 0 ≤ tc B + sl B := by
    have : (0 : ℚ) ≤ B.tcBps / 10000 := by positivity
    have : (0 : ℚ) ≤ B.slBps / 10000 := by positivity
    unfold tc sl
    positivity
  have := mul_nonneg hturn hrates
  linarith

/-- Witness for C9 at a concrete two-asset input with 5 bps cost. -/
theorem first_day_pure_cost_witness :
    let B : BTInput 2 :=
      ⟨fun _ _ => 1, fun _ _ => some (1 / 2), 5, 2⟩
    grossReturn B 0 = 0
    ∧ netReturn B 0 = -(turnover B 0 * (tc B + sl B))
    ∧ netReturn B 0 ≤ 0 :=
  first_day_pure_cost _ (by norm_num) (by norm_num)

/-- One asset, three dates; the target-weight row of date 1 is entirely
missing even though date 0 carries a value, so it is not a leading gap. -/
def exGapInput : Backtester.BTInput 1 :=
  ⟨fun _ _ => 1,
   fun t _ => if t = 0 then some (2 / 5) else if t = 2 then some (7 / 10) else none,
   5, 0⟩

/-- A position at which the filled series is present keeps its value. -/
theorem ffillAt_of_some (f : ℕ → Option ℚ) (t : ℕ) {x : ℚ} (h : f t = some x) :
    ffillAt f t = some x := by
  cases t <;> simp [ffillAt, h]

/-- `allMissing` is exactly "every cell of the row is NaN". -/
theorem allMissing_eq_true_iff {m : ℕ} (B : BTInput m) (t : ℕ) :
    allMissing B t = true ↔ ∀ a, B.tw t a = none := by
  simp [allMissing, List.all_eq_true, Option.isNone_iff_eq_none, List.mem_finRange]

/-- Counterexample to claim C5: at `exGapInput` the date-1 row is
entirely missing and date 0 is available, yet `run_backtest` fills date 1
with the equal-weight value 1 (the all-NaN mask is applied to every row,
not only leading ones) instead of forward-filling the date-0 value. -/
theorem midseries_gap_not_ffilled_cex :
    (∀ a, exGapInput.tw 1 a = none)
    ∧ exGapInput.tw 0 0 = some (2 / 5)
    ∧ weightsFilled exGapInput 0 0 = 2 / 5
    ∧ weightsFilled exGapInput 1 0 = 1
    ∧ weightsFilled exGapInput 1 0 ≠ weightsFilled exGapInput 0 0 := by
  have e0 : ffillAt (fun s => equalWeightFill exGapInput s 0) 0 = some (2 / 5) := rfl
  have e1 : ffillAt (fun s => equalWeightFill exGapInput s 0) 1 =
      some (1 / ((1 : ℕ) : ℚ)) := rfl
  have h0 : weightsFilled exGapInput 0 0 = 2 / 5 := by simp [weightsFilled, e0]
  have h1 : weightsFilled exGapInput 1 0 = 1 := by simp [weightsFilled, e1]
  exact ⟨fun a => rfl, rfl, h0, h1, by rw [h0, h1]; norm_num⟩

/-- Claim C5 amended: every date whose target-weight row is entirely
missing — leading or not — is filled with the equal-weight allocation
`1/m`; a cell that is present keeps its value; a missing cell of a row
that is not entirely missing is forward-filled from the previous date's
filled value, and at date 0 such a residual gap is filled with zero. -/
theorem weight_fill_policy {m : ℕ} (B : BTInput m) (t : ℕ) (a : Fin m) :
    (allMissing B t = true → weightsFilled B t a = 1 / (m : ℚ))
    ∧ (∀ x : ℚ, B.tw t a = some x → weightsFilled B t a = x)
    ∧ (allMissing B (t + 1) = false → B.tw (t + 1) a = none →
        weightsFilled B (t + 1) a = weightsFilled B t a)
    ∧ (allMissing B 0 = false → B.tw 0 a = none → weightsFilled B 0 a = 0) := by
  refine ⟨?_, ?_, ?_, ?_⟩
  · intro h
    have he : equalWeightFill B t a = some (1 / (m : ℚ)) := by
      simp [equalWeightFill, h]
    have := ffillAt_of_some (fun s => equalWeightFill B s a) t he
    simp [weightsFilled, this]
  · intro x hx
    have hnm : allMissing B t = false := by
      cases hb : allMissing B t
      · rfl
      · exact absurd ((allMissing_eq_true_iff B t).1 hb a) (by simp [hx])
    have he : equalWeightFill B t a = some x := by
      simp [equalWeightFill, hnm, hx]
    have := ffillAt_of_some (fun s => equalWeightFill B s a) t he
    simp [weightsFilled, this]
  · intro hnm hx
    have he : equalWeightFill B (t + 1) a = none := by
      simp [equalWeightFill, hnm, hx]
    simp [weightsFilled, ffillAt, he]
  · intro hnm hx
    have he : equalWeightFill B 0 a = none := by
      simp [equalWeightFill, hnm, hx]
    simp [weightsFilled, ffillAt, he]

/-- Witness for the amended C5 at `exGapInput`: the all-missing date-1
row takes the equal weight, and the present date-0 cell keeps its value. -/
theorem weight_fill_policy_witness :
    weightsFilled exGapInput 1 0 = 1 / ((1 : ℕ) : ℚ)
    ∧ weightsFilled exGapInput 0 0 = 2 / 5 :=
  ⟨(weight_fill_policy exGapInput 1 0).1 (by decide),
   (weight_fill_policy exGapInput 0 0).2.1 (2 / 5) rfl⟩

end Cassandra

/-! ## Metrics engine (`src/backtester.py`, `calculate_performance_metrics`)

`self.results` is the completed ReturnSeries (dates `0, ..., T-1`), and
`day i` is the calendar-day number of index position `i` (the code uses
`(index[-1] - index[0]).days`).  `np.nan` results are `none`.  `sqrtQ`
abstracts `np.sqrt` and `rpow` abstracts the float power `x ** y`; both
are library functions external to this repository. -/

namespace Cassandra

namespace Metrics

structure MetricsInput where
  /-- `len(self.results)`. -/
  T : ℕ
  /-- `self.results`, the daily net returns. -/
  res : ℕ → ℚ
  /-- calendar-day number of each date of the index. -/
  day : ℕ → ℤ
  /-- abstracts `np.sqrt` on nonnegative arguments. -/
  sqrtQ : ℚ → ℚ
  /-- abstracts the float power `x ** y`. -/
  rpow : ℚ → ℚ → ℚ

/-- `equity_curve = (1 + self.results).cumprod()` at index `t`. -/
def equity (M : MetricsInput) (t : ℕ) : ℚ :=
  ∏ s ∈ Finset.range (t + 1), (1 + M.res s)

/-- `n_years = (index[-1] - index[0]).days / 365.25`. -/
def nYears (M : MetricsInput) : ℚ :=
  ((M.day (M.T - 1) - M.day 0 : ℤ) : ℚ) / (1461 / 4)

/-- `cagr = equity_curve.iloc[-1] ** (1 / n_years) - 1 if n_years > 0
else np.nan`. -/
def cagr (M : MetricsInput) : Option ℚ :=
  if 0 < nYears M then some (M.rpow (equity M (M.T - 1)) (1 / nYears M) - 1)
  else none

/-- `self.results.mean()`. -/
def mean (M : MetricsInput) : ℚ :=
  (∑ s ∈ Finset.range M.T, M.res s) / (M.T : ℚ)

/-- The sample variance with `ddof=1` underlying `self.results.std(ddof=1)`. -/
def sampleVar (M : MetricsInput) : ℚ :=
  (∑ s ∈ Finset.range M.T, (M.res s - mean M) ^ 2) / ((M.T : ℚ) - 1)

/-- `self.results.std(ddof=1)`: NaN when fewer than two observations
exist, otherwise the square root of the sample variance. -/
def stdDev (M : MetricsInput) : Option ℚ :=
  if 2 ≤ M.T then some (M.sqrtQ (sampleVar M)) else none

/-- `volatility = self.results.std(ddof=1) * np.sqrt(252)`. -/
def volatility (M : MetricsInput) : Option ℚ :=
  (stdDev M).map fun s => s * M.sqrtQ 252

/-- `sharpe_ratio = (mean * 252) / (std * sqrt(252)) if volatility != 0
else np.nan`; a NaN standard deviation propagates to a NaN Sharpe (the
Python comparison `nan != 0` is true but the quotient is NaN). -/
def sharpe (M : MetricsInput) : Option ℚ :=
  match stdDev M with
  | none => none
  | some s =>
    if s * M.sqrtQ 252 = 0 then none
    else some ((mean M * 252) / (s * M.sqrtQ 252))

/-- `rolling_max = equity_curve.cummax()` at index `t`. -/
def rollingMax (M : MetricsInput) : ℕ → ℚ
  | 0 => equity M 0
  | t + 1 => max (rollingMax M t) (equity M (t + 1))

/-- `drawdown = equity_curve / rolling_max - 1` at index `t`. -/
def drawdown (M : MetricsInput) (t : ℕ) : ℚ :=
  equity M t / rollingMax M t - 1

/-- Running minimum of the drawdown series up to index `t`. -/
def drawdownMin (M : MetricsInput) : ℕ → ℚ
  | 0 => drawdown M 0
  | t + 1 => min (drawdownMin M t) (drawdown M (t + 1))

/-- `max_drawdown = drawdown.min()`. -/
def maxDrawdown (M : MetricsInput) : ℚ :=
  drawdownMin M (M.T - 1)

end Metrics

end Cassandra

namespace Cassandra

open Metrics

/-- Three dates of constant zero returns, one calendar day apart; the
abstracted library functions are instantiated so that they agree with
`np.sqrt` at 0 and with the float power at base 1. -/
def exZeroRet : MetricsInput :=
  ⟨3, fun _ => 0, fun t => (t : ℤ), fun x => x, fun x _ => x⟩

/-- With every return equal to zero the equity curve is constant 1. -/
theorem equity_of_zero_returns {M : MetricsInput} (hres : ∀ t, M.res t = 0)
    (t : ℕ) : equity M t = 1 :=
  Finset.prod_eq_one fun s _ => by rw [hres s, add_zero]

/-- Counterexample to claim C7: on a constant-zero return series over a
positive date span the code reports CAGR as `1 ** (1/n_years) - 1 = 0`,
a defined value, not as not-a-number (the instantiated power agrees with
the real one at base 1). -/
theorem zero_returns_cagr_defined_cex :
    (∀ t, exZeroRet.res t = 0)
    ∧ 0 < nYears exZeroRet
    ∧ (∀ x y : ℚ, exZeroRet.rpow x y = x)
    ∧ cagr exZeroRet = some 0
    ∧ cagr exZeroRet ≠ none := by
  have hres : ∀ t, exZeroRet.res t = 0 := fun _ => rfl
  have hspan : 0 < nYears exZeroRet := by norm_num [nYears, exZeroRet]
  have hc : cagr exZeroRet = some 0 := by
    rw [cagr, if_pos hspan]
    rw [equity_of_zero_returns hres]
    norm_num [exZeroRet]
  exact ⟨hres, hspan, fun _ _ => rfl, hc, by rw [hc]; simp⟩

/-- Claim C7 amended: on a constant-zero return series over a positive
date span the code reports CAGR as 0 (defined), Sharpe as not-a-number
and maximum drawdown as 0; in general CAGR is not-a-number exactly when
the elapsed span is not positive, and Sharpe is not-a-number whenever the
annualized volatility is exactly 0. -/
theorem zero_return_metrics (M : MetricsInput)
    (hT : 2 ≤ M.T) (hres : ∀ t, M.res t = 0) (hspan : 0 < nYears M)
    (hsqrt0 : M.sqrtQ 0 = 0) (hrpow1 : ∀ y, M.rpow 1 y = 1) :
    cagr M = some 0 ∧ sharpe M = none ∧ maxDrawdown M = 0
    ∧ (∀ M2 : MetricsInput, ¬ 0 < nYears M2 → cagr M2 = none)
    ∧ (∀ M2 : MetricsInput, ∀ s : ℚ,
        stdDev M2 = some s → s * M2.sqrtQ 252 = 0 → sharpe M2 = none) := by
  have heq : ∀ t, equity M t = 1 := equity_of_zero_returns hres
  refine ⟨?_, ?_, ?_, ?_, ?_⟩
  · rw [cagr, if_pos hspan, heq, hrpow1]
    norm_num
  · have hvar : sampleVar M = 0 := by
      have hmean : mean M = 0 := by
        rw [mean, Finset.sum_eq_zero fun s _ => hres s, zero_div]
      rw [sampleVar, Finset.sum_eq_zero, zero_div]
      intro s _
      rw [hres s, hmean]
      ring
    have hstd : stdDev M = some 0 := by
      rw [stdDev, if_pos hT, hvar, hsqrt0]
    rw [sharpe, hstd]
    simp
  · have hroll : ∀ t, rollingMax M t = 1 := by
      intro t
      induction t with
      | zero => rw [rollingMax, heq]
      | succ t ih => rw [rollingMax, ih, heq, max_self]
    have hdd : ∀ t, drawdown M t = 0 := by
      intro t
      rw [drawdown, heq, hroll]
      norm_num
    have hmin : ∀ t, drawdownMin M t = 0 := by
      intro t
      induction t with
      | zero => rw [drawdownMin, hdd]
      | succ t ih => rw [drawdownMin, ih, hdd, min_self]
    rw [maxDrawdown, hmin]
  · intro M2 h
    rw [cagr, if_neg h]
  · intro M2 s hs h0
    rw [sharpe, hs]
    simp [h0]

/-- Witness for the amended C7 at the concrete constant-zero input. -/
theorem zero_return_metrics_witness :
    cagr exZeroRet = some 0 ∧ sharpe exZeroRet = none
    ∧ maxDrawdown exZeroRet = 0
    ∧ (∀ M2 : MetricsInput, ¬ 0 < nYears M2 → cagr M2 = none)
    ∧ (∀ M2 : MetricsInput, ∀ s : ℚ,
        stdDev M2 = some s → s * M2.sqrtQ 252 = 0 → sharpe M2 = none) :=
  zero_return_metrics exZeroRet (by norm_num [exZeroRet]) (fun _ => rfl)
    (by norm_num [nYears, exZeroRet]) rfl (fun _ => rfl)

end Cassandra

/-! ## Portfolio construction (`src/portfolio_construction.py`)

`generate_target_portfolio(predictions_df, prices_df)` and its helpers.
The two tables are taken over one shared date axis `0, 1, ...` and over
the shared asset columns `Fin m` (`asset_columns` of the code is the
intersection of the two column sets; both tables are modelled already
restricted to it).  `momWindow` is `config.MOMENTUM_LOOKBACK` (63 in
`src/config.py`) and `volWindow` is the `vol_window` argument of
`calculate_volatility_scaled_weights` (60 at this call site); `tanhQ`
and `sqrtQ` abstract `np.tanh` and `np.sqrt`. -/

namespace Cassandra

namespace Portfolio

structure PCInput (m : ℕ) where
  /-- `predictions_df` restricted to the shared columns; `none` is NaN. -/
  pred : ℕ → Fin m → Option ℚ
  /-- `prices_df` restricted to the shared columns. -/
  price : ℕ → Fin m → ℚ
  /-- `config.MOMENTUM_LOOKBACK` (63 in `src/config.py`). -/
  momWindow : ℕ
  /-- `vol_window` (60 at the `generate_target_portfolio` call site). -/
  volWindow : ℕ
  /-- abstracts `np.tanh`. -/
  tanhQ : ℚ → ℚ
  /-- abstracts `np.sqrt` on nonnegative arguments. -/
  sqrtQ : ℚ → ℚ

variable {m : ℕ}

/-- `returns = prices_df[asset_columns].pct_change()`: the first row is
NaN. -/
def ret (X : PCInput m) (t : ℕ) (a : Fin m) : Option ℚ :=
  if t = 0 then none else some (X.price t a / X.price (t - 1) a - 1)

/-- Sample variance (`ddof=1`) of a list of observations. -/
def sampleVarList (l : List ℚ) : ℚ :=
  ((l.map fun x => (x - l.sum / (l.length : ℚ)) ^ 2).sum) / ((l.length : ℚ) - 1)

/-- The `w` observations of a rolling window ending at position `t`
(positions `t+1-w, ..., t`), with missing cells defaulted. -/
def windowVals (f : ℕ → Option ℚ) (w t : ℕ) : List ℚ :=
  (List.range w).map fun j => (f (t + 1 - w + j)).getD 0

/-- Whether the rolling window ending at `t` holds `w` non-NaN
observations (pandas' default `min_periods=window`). -/
def windowFull (f : ℕ → Option ℚ) (w t : ℕ) : Bool :=
  decide (w ≤ t + 1) && (List.range w).all fun j => (f (t + 1 - w + j)).isSome

/-- `series.rolling(window=w).std()` at position `t`: NaN unless the
window is full and `ddof=1` leaves a positive denominator (`w ≥ 2`). -/
def rollingStd (sq : ℚ → ℚ) (f : ℕ → Option ℚ) (w t : ℕ) : Option ℚ :=
  if 2 ≤ w ∧ windowFull f w t = true then some (sq (sampleVarList (windowVals f w t)))
  else none

/-- `volatility = returns.rolling(window=vol_window).std()` in
`calculate_volatility_scaled_weights`. -/
def volRaw (X : PCInput m) (t : ℕ) (a : Fin m) : Option ℚ :=
  rollingStd X.sqrtQ (fun s => ret X s a) X.volWindow t

/-- `volatility_aligned[volatility_aligned == 0] = np.nan`. -/
def volNZ (X : PCInput m) (t : ℕ) (a : Fin m) : Option ℚ :=
  (volRaw X t a).bind fun x => if x = 0 then none else some x

/-- `momentum_returns = prices_df[asset_columns].pct_change(momentum_window)`. -/
def momReturns (X : PCInput m) (t : ℕ) (a : Fin m) : Option ℚ :=
  if X.momWindow ≤ t then some (X.price t a / X.price (t - X.momWindow) a - 1)
  else none

/-- `momentum_vol = returns.rolling(momentum_window).std()`. -/
def momVol (X : PCInput m) (t : ℕ) (a : Fin m) : Option ℚ :=
  rollingStd X.sqrtQ (fun s => ret X s a) X.momWindow t

/-- `momentum_signal = (momentum_returns / (momentum_vol *
np.sqrt(momentum_window))).replace([inf, -inf], 0).fillna(0)`: a NaN
operand or a zero denominator produces 0 (rational division by zero is 0,
matching the `replace`/`fillna` coercions of the float code). -/
def momSignal (X : PCInput m) (t : ℕ) (a : Fin m) : ℚ :=
  match momReturns X t a, momVol X t a with
  | some r, some vl => r / (vl * X.sqrtQ (X.momWindow : ℚ))
  | _, _ => 0

/-- `calculate_confidence_score`: `predictions_df - 0.5`. -/
def confidence (X : PCInput m) (t : ℕ) (a : Fin m) : Option ℚ :=
  (X.pred t a).map fun p => p - 1 / 2

/-- `confidence_scores.add(0.15 * np.tanh(momentum_signal), fill_value=0)`:
a NaN score contributes 0; the overlay itself is never NaN. -/
def confAdj (X : PCInput m) (t : ℕ) (a : Fin m) : ℚ :=
  (confidence X t a).getD 0 + (3 / 20) * X.tanhQ (momSignal X t a)

/-- `raw_weights = scores_aligned / volatility_aligned` (NaN volatility
gives a NaN weight). -/
def rawW (X : PCInput m) (t : ℕ) (a : Fin m) : Option ℚ :=
  (volNZ X t a).map fun vl => confAdj X t a / vl

/-- `positive_weights = raw_weights.where(raw_weights > 0, 0)`: a NaN
compares false and becomes 0. -/
def posW (X : PCInput m) (t : ℕ) (a : Fin m) : ℚ :=
  match rawW X t a with
  | some x => if 0 < x then x else 0
  | none => 0

/-- `row_sum = positive_weights.sum(axis=1)`. -/
def rowSum (X : PCInput m) (t : ℕ) : ℚ := ∑ a, posW X t a

/-- `row_sum[row_sum == 0] = 1.0`. -/
def rowSumSafe (X : PCInput m) (t : ℕ) : ℚ :=
  if rowSum X t = 0 then 1 else rowSum X t

/-- `target_weights = positive_weights.div(row_sum, axis=0)`. -/
def twNorm (X : PCInput m) (t : ℕ) (a : Fin m) : ℚ :=
  posW X t a / rowSumSafe X t

/-- `fallback_days = target_weights.sum(axis=1).fillna(0) == 0`. -/
def fallbackDay (X : PCInput m) (t : ℕ) : Bool :=
  decide ((∑ a, twNorm X t a) = 0)

/-- The asset `nlargest` would list first among `l`: the highest score,
earliest column on ties (pandas `keep='first'`). -/
def pickTop (score : Fin m → ℚ) : List (Fin m) → Option (Fin m)
  | [] => none
  | a :: rest =>
    match pickTop score rest with
    | none => some a
    | some b => if score a < score b then some b else some a

/-- `row.nlargest(k).index`: the `k` top-scored assets, highest first,
earliest column on ties. -/
def nlargestIdx (score : Fin m → ℚ) : ℕ → List (Fin m) → List (Fin m)
  | 0, _ => []
  | Nat.succ k, l =>
    match pickTop score l with
    | none => []
    | some a => a :: nlargestIdx score k (l.erase a)

/-- `max_positions = min(3, max(1, len(asset_columns)))`. -/
def maxPositions (m : ℕ) : ℕ := min 3 (max 1 m)

/-- `top_assets = row.nlargest(max_positions).index` on the fallback
scores.  The fallback scores are the adjusted confidence scores: the
code's `fillna(-np.inf)` is a no-op because the momentum overlay makes
every score present, so the `!= -inf` validity filter keeps every ranked
asset. -/
def topAssets (X : PCInput m) (t : ℕ) : List (Fin m) :=
  nlargestIdx (confAdj X t) (maxPositions m) (List.finRange m)

/-- `fallback_alloc`: `1.0 / len(valid_assets)` on the selected assets,
0 elsewhere. -/
def fallbackAlloc (X : PCInput m) (t : ℕ) (a : Fin m) : ℚ :=
  if a ∈ topAssets X t then 1 / ((topAssets X t).length : ℚ) else 0

/-- The weight row after `target_weights.loc[fallback_alloc.index] =
fallback_alloc` and `fillna(0.0)` (the latter is a no-op here: both
branches are total). -/
def twFall (X : PCInput m) (t : ℕ) (a : Fin m) : ℚ :=
  if fallbackDay X t then fallbackAlloc X t a else twNorm X t a

/-- `row_sum = target_weights[asset_columns].sum(axis=1)` before the
final renormalization. -/
def assetRowSum (X : PCInput m) (t : ℕ) : ℚ := ∑ a, twFall X t a

/-- `target_weights[asset_columns] =
target_weights[asset_columns].div(row_sum, axis=0)`. -/
def twFinal (X : PCInput m) (t : ℕ) (a : Fin m) : ℚ :=
  twFall X t a / assetRowSum X t

/-- `target_weights['Cash'] = 1 - target_weights[asset_columns].sum(axis=1)`. -/
def cashW (X : PCInput m) (t : ℕ) : ℚ := 1 - ∑ a, twFinal X t a

/-- Clipped weights are nonnegative. -/
theorem posW_nonneg (X : PCInput m) (t : ℕ) (a : Fin m) : 0 ≤ posW X t a := by
  unfold posW
  cases hr : rawW X t a
  · simp
  · dsimp only
    split
    · linarith
    · exact le_rfl

/-- The guarded row sum used for normalization is positive. -/
theorem rowSumSafe_pos (X : PCInput m) (t : ℕ) : 0 < rowSumSafe X t := by
  unfold rowSumSafe
  split
  · norm_num
  · rename_i h
    have h0 : 0 ≤ rowSum X t := by
      rw [rowSum]
      exact Finset.sum_nonneg fun a _ => posW_nonneg X t a
    exact lt_of_le_of_ne h0 (Ne.symm h)

/-- Row sum of the normalized weights. -/
theorem sum_twNorm (X : PCInput m) (t : ℕ) :
    (∑ a, twNorm X t a) = rowSum X t / rowSumSafe X t := by
  unfold twNorm
  rw [← Finset.sum_div]
  rfl

/-- The asset `pickTop` selects belongs to the scanned list. -/
theorem pickTop_mem {score : Fin m → ℚ} :
    ∀ {l : List (Fin m)} {a : Fin m}, pickTop score l = some a → a ∈ l := by
  intro l
  induction l with
  | nil => intro a h; simp [pickTop] at h
  | cons x rest ih =>
    intro a h
    rw [pickTop] at h
    cases hp : pickTop score rest with
    | none =>
      rw [hp] at h
      simp only [Option.some.injEq] at h
      simp [h]
    | some b =>
      rw [hp] at h
      dsimp only at h
      split at h <;> simp only [Option.some.injEq] at h
      · subst h; exact List.mem_cons_of_mem x (ih hp)
      · simp [h]

/-- `pickTop` always answers on a nonempty list. -/
theorem pickTop_cons_isSome (score : Fin m → ℚ) (x : Fin m) (rest : List (Fin m)) :
    (pickTop score (x :: rest)).isSome = true := by
  rw [pickTop]
  cases pickTop score rest
  · rfl
  · dsimp only
    split <;> rfl

/-- The `nlargest` selection stays inside the scanned list. -/
theorem nlargestIdx_subset {score : Fin m → ℚ} :
    ∀ (k : ℕ) (l : List (Fin m)), ∀ x ∈ nlargestIdx score k l, x ∈ l := by
  intro k
  induction k with
  | zero => intro l x hx; simp [nlargestIdx] at hx
  | succ k ih =>
    intro l x hx
    rw [nlargestIdx] at hx
    cases hp : pickTop score l with
    | none => rw [hp] at hx; simp at hx
    | some a =>
      rw [hp] at hx
      rcases List.mem_cons.1 hx with h | h
      · subst h; exact pickTop_mem hp
      · exact List.erase_subset a l (ih _ x h)

/-- The `nlargest` selection never repeats an asset. -/
theorem nlargestIdx_nodup {score : Fin m → ℚ} :
    ∀ (k : ℕ) (l : List (Fin m)), l.Nodup → (nlargestIdx score k l).Nodup := by
  intro k
  induction k with
  | zero => intro l _; simp [nlargestIdx]
  | succ k ih =>
    intro l hl
    rw [nlargestIdx]
    cases hp : pickTop score l with
    | none => simp
    | some a =>
      refine List.nodup_cons.2 ⟨?_, ih _ (hl.erase a)⟩
      intro hmem
      have hsub : a ∈ l.erase a := nlargestIdx_subset _ _ _ hmem
      rw [hl.mem_erase_iff] at hsub
      exact hsub.1 rfl

/-- The `nlargest` selection has `min k (len l)` entries. -/
theorem nlargestIdx_length {score : Fin m → ℚ} :
    ∀ (k : ℕ) (l : List (Fin m)),
      (nlargestIdx score k l).length = min k l.length := by
  intro k
  induction k with
  | zero => intro l; simp [nlargestIdx]
  | succ k ih =>
    intro l
    rw [nlargestIdx]
    cases l with
    | nil => simp [pickTop]
    | cons x rest =>
      have hs := pickTop_cons_isSome score x rest
      cases hp : pickTop score (x :: rest) with
      | none => rw [hp] at hs; simp at hs
      | some a =>
        dsimp only
        rw [List.length_cons, ih, List.length_erase_of_mem (pickTop_mem hp)]
        simp only [List.length_cons]
        omega

/-- On an all-tied score row `pickTop` keeps the earliest asset. -/
theorem pickTop_const {score : Fin m → ℚ} (hs : ∀ x y, score x = score y) :
    ∀ l : List (Fin m), pickTop score l = l.head? := by
  intro l
  induction l with
  | nil => rfl
  | cons x rest ih =>
    cases rest with
    | nil => rfl
    | cons b rest2 =>
      rw [pickTop, ih]
      show (if score x < score b then some b else some x) = some x
      rw [if_neg (by rw [hs x b]; exact lt_irrefl _)]

/-- On an all-tied score row `nlargest` returns the first `k` assets in
column order. -/
theorem nlargestIdx_const {score : Fin m → ℚ} (hs : ∀ x y, score x = score y) :
    ∀ (k : ℕ) (l : List (Fin m)), nlargestIdx score k l = l.take k := by
  intro k
  induction k with
  | zero => intro l; simp [nlargestIdx]
  | succ k ih =>
    intro l
    rw [nlargestIdx, pickTop_const hs]
    cases l with
    | nil => rfl
    | cons x rest =>
      show x :: nlargestIdx score k ((x :: rest).erase x) = x :: rest.take k
      rw [List.erase_cons_head, ih]

/-- The fallback allocation of a date always sums to 1 when at least one
asset column exists. -/
theorem sum_fallbackAlloc (X : PCInput m) (t : ℕ) (hm : 1 ≤ m) :
    (∑ a, fallbackAlloc X t a) = 1 := by
  have hlen : (topAssets X t).length = min (maxPositions m) m := by
    rw [topAssets, nlargestIdx_length, List.length_finRange]
  have hpos : 0 < (topAssets X t).length := by
    rw [hlen, maxPositions]; omega
  have hnd : (topAssets X t).Nodup :=
    nlargestIdx_nodup _ _ (List.nodup_finRange m)
  have hrw : ∀ a : Fin m, fallbackAlloc X t a =
      if a ∈ (topAssets X t).toFinset
      then (1 : ℚ) / ((topAssets X t).length : ℚ) else 0 := by
    intro a
    rw [fallbackAlloc]
    simp [List.mem_toFinset]
  rw [Finset.sum_congr rfl fun a _ => hrw a, Finset.sum_ite_mem,
    Finset.univ_inter, Finset.sum_const, List.toFinset_card_of_nodup hnd,
    nsmul_eq_mul]
  rw [mul_one_div, div_self]
  exact Nat.cast_ne_zero.2 (Nat.pos_iff_ne_zero.1 hpos)

/-- A sum of a function over `List.range` as a `Finset.range` sum. -/
theorem list_range_map_sum (g : ℕ → ℚ) (n : ℕ) :
    ((List.range n).map g).sum = ∑ j ∈ Finset.range n, g j := by
  induction n with
  | zero => simp
  | succ n ih =>
    rw [List.range_succ, List.map_append, List.sum_append,
      Finset.sum_range_succ, ih]
    simp

/-- Expansion of a sum of squared deviations. -/
theorem sum_sq_dev (c : ℚ) : ∀ l : List ℚ,
    (l.map fun x => (x - c) ^ 2).sum
      = (l.map fun x => x ^ 2).sum - 2 * c * l.sum + l.length * c ^ 2 := by
  intro l
  induction l with
  | nil => simp
  | cons y ys ih =>
    simp only [List.map_cons, List.sum_cons, List.length_cons, ih]
    push_cast
    ring

/-- The sample variance in terms of the sum and the sum of squares. -/
theorem sampleVarList_eq (l : List ℚ) (hl : l ≠ []) :
    sampleVarList l =
      ((l.map fun x => x ^ 2).sum - l.sum ^ 2 / (l.length : ℚ))
        / ((l.length : ℚ) - 1) := by
  have hn : (l.length : ℚ) ≠ 0 :=
    Nat.cast_ne_zero.2 fun h => hl (List.length_eq_zero.1 h)
  rw [sampleVarList, sum_sq_dev]
  congr 1
  field_simp
  ring

/-- The sample variance of `w` observations of which exactly one is 1
and the rest are 0 is `1/w`. -/
theorem sampleVarList_indicator (w k : ℕ) (hk : k < w) (hw : 2 ≤ w) :
    sampleVarList ((List.range w).map fun j => if j = k then (1 : ℚ) else 0)
      = 1 / (w : ℚ) := by
  have hlen : ((List.range w).map fun j => if j = k then (1 : ℚ) else 0).length = w := by
    rw [List.length_map, List.length_range]
  have hne : ((List.range w).map fun j => if j = k then (1 : ℚ) else 0) ≠ [] := by
    intro h
    rw [h] at hlen
    simp at hlen
    omega
  have hind : (∑ j ∈ Finset.range w, if j = k then (1 : ℚ) else 0) = 1 := by
    rw [Finset.sum_ite_eq' (Finset.range w) k fun _ => (1 : ℚ)]
    rw [if_pos (Finset.mem_range.2 hk)]
  have hsum : ((List.range w).map fun j => if j = k then (1 : ℚ) else 0).sum = 1 := by
    rw [list_range_map_sum]
    exact hind
  have hsq : (((List.range w).map fun j => if j = k then (1 : ℚ) else 0).map
      fun x => x ^ 2).sum = 1 := by
    rw [List.map_map, list_range_map_sum]
    calc (∑ j ∈ Finset.range w,
            ((fun x => x ^ 2) ∘ fun j => if j = k then (1 : ℚ) else 0) j)
        = ∑ j ∈ Finset.range w, (if j = k then (1 : ℚ) else 0) := by
          refine Finset.sum_congr rfl fun j _ => ?_
          simp only [Function.comp]
          split <;> norm_num
      _ = 1 := hind
  rw [sampleVarList_eq _ hne, hsum, hsq, hlen]
  have h2 : (2 : ℚ) ≤ (w : ℚ) := by exact_mod_cast hw
  have hw0 : (w : ℚ) ≠ 0 := ne_of_gt (by linarith)
  have hw1 : (w : ℚ) - 1 ≠ 0 := ne_of_gt (by linarith)
  field_simp
  ring

/-- The sample variance of all-zero observations is 0. -/
theorem sampleVarList_zero (w : ℕ) :
    sampleVarList ((List.range w).map fun _ => (0 : ℚ)) = 0 := by
  have h1 : ((List.range w).map fun _ => (0 : ℚ)).sum = 0 := by
    rw [list_range_map_sum]
    exact Finset.sum_const_zero
  rw [sampleVarList, h1]
  simp only [zero_div, sub_zero, List.map_map]
  have h2 : ((List.range w).map ((fun x => x ^ 2) ∘ fun _ => (0 : ℚ))).sum = 0 := by
    rw [list_range_map_sum]
    simp
  rw [h2, zero_div]

/-- The asset-column row sum entering the final renormalization is
exactly 1 on every date (nonempty asset universe): normalized days sum
to 1 by construction and fallback days by `sum_fallbackAlloc`. -/
theorem assetRowSum_eq_one (X : PCInput m) (t : ℕ) (hm : 1 ≤ m) :
    assetRowSum X t = 1 := by
  by_cases h : rowSum X t = 0
  · have hz : (∑ a, twNorm X t a) = 0 := by
      rw [sum_twNorm, h, zero_div]
    have hfb : fallbackDay X t = true := by
      simp [fallbackDay, hz]
    rw [assetRowSum]
    calc (∑ a, twFall X t a) = ∑ a, fallbackAlloc X t a := by
          refine Finset.sum_congr rfl fun a _ => ?_
          rw [twFall, hfb]
          simp
      _ = 1 := sum_fallbackAlloc X t hm
  · have h1 : (∑ a, twNorm X t a) = 1 := by
      rw [sum_twNorm, rowSumSafe, if_neg h, div_self h]
    have hfb : fallbackDay X t = false := by
      simp [fallbackDay, h1]
    rw [assetRowSum]
    calc (∑ a, twFall X t a) = ∑ a, twNorm X t a := by
          refine Finset.sum_congr rfl fun a _ => ?_
          rw [twFall, hfb]
          simp
      _ = 1 := h1

end Portfolio

end Cassandra

namespace Cassandra

open Portfolio

/-- Claim C2: every row of the weight matrix returned by
`generate_target_portfolio` sums to 1 across the asset columns plus the
cash column (exactly, hence within the 1e-9 tolerance), every asset
entry is nonnegative, and the divisor of the final renormalization is in
fact always 1. -/
theorem weight_rows_sum_one {m : ℕ} (X : PCInput m) (t : ℕ) (hm : 1 ≤ m) :
    assetRowSum X t = 1
    ∧ (∑ a, twFinal X t a) + cashW X t = 1
    ∧ ∀ a, 0 ≤ twFinal X t a := by
  have h1 := assetRowSum_eq_one X t hm
  refine ⟨h1, by rw [cashW]; ring, fun a => ?_⟩
  have h2 : 0 ≤ twFall X t a := by
    rw [twFall]
    split
    · rw [fallbackAlloc]
      split
      · exact div_nonneg zero_le_one (Nat.cast_nonneg _)
      · exact le_rfl
    · exact div_nonneg (posW_nonneg X t a) (le_of_lt (rowSumSafe_pos X t))
  rw [twFinal, h1, div_one]
  exact h2

/-- A minimal one-asset input: no predictions, constant unit prices. -/
def exTriv : PCInput 1 :=
  ⟨fun _ _ => none, fun _ _ => 1, 2, 2, fun x => x, fun x => x⟩

/-- Witness for C2 at the minimal one-asset input. -/
theorem weight_rows_sum_one_witness :
    assetRowSum exTriv 0 = 1
    ∧ (∑ a, twFinal exTriv 0 a) + cashW exTriv 0 = 1
    ∧ ∀ a, 0 ≤ twFinal exTriv 0 a :=
  weight_rows_sum_one exTriv 0 (by norm_num)

/-- Claim C10: on every date where the final renormalization of
`generate_target_portfolio` is well-defined (nonzero asset row sum) the
asset columns are rescaled to sum to exactly 1, so the Cash column is
exactly 0: the produced portfolio is fully invested. -/
theorem renorm_full_investment {m : ℕ} (X : PCInput m) (t : ℕ)
    (h : assetRowSum X t ≠ 0) :
    (∑ a, twFinal X t a) = 1 ∧ cashW X t = 0 := by
  have hs : (∑ a, twFinal X t a) = 1 := by
    unfold twFinal
    rw [← Finset.sum_div]
    exact div_self h
  exact ⟨hs, by rw [cashW, hs]; ring⟩

/-- Witness for C10 at the minimal one-asset input. -/
theorem renorm_full_investment_witness :
    (∑ a, twFinal exTriv 0 a) = 1 ∧ cashW exTriv 0 = 0 :=
  renorm_full_investment exTriv 0
    (by rw [assetRowSum_eq_one exTriv 0 (by norm_num)]; norm_num)

/-- One asset over 64 dates at the repository's real windows
(`momWindow = config.MOMENTUM_LOOKBACK = 63`, `volWindow = 60`, the
hardcoded `vol_window` of the `generate_target_portfolio` call site):
the price is 1 up to date 9 and 2 from date 10 on, so exactly one daily
return inside each rolling window ending at date 63 is nonzero; every
prediction is exactly 0.5; the abstracted `np.tanh`/`np.sqrt` are
instantiated with sign-faithful rational stand-ins. -/
def exJump : PCInput 1 :=
  ⟨fun _ _ => some (1 / 2), fun t _ => if t < 10 then 1 else 2, 63, 60,
   fun x => x, fun x => x⟩

/-- Counterexample to claim C8 at the source's real windows (momentum
lookback 63, volatility window 60): on date 63 every prediction is
exactly 0.5, yet the momentum overlay pushes the adjusted confidence
score to `3/20 ≠ 0`; the 60-day volatility is the defined value
`sqrt(1/60) ≠ 0`, the fallback is not triggered, and the date's weight
comes from the volatility-scaled normalization instead. -/
theorem neutral_predictions_no_fallback_cex :
    (∀ t a, exJump.pred t a = some (1 / 2))
    ∧ confAdj exJump 63 0 = 3 / 20
    ∧ confAdj exJump 63 0 ≠ 0
    ∧ fallbackDay exJump 63 = false
    ∧ twFinal exJump 63 0 = 1 := by
  have hret : ∀ s : ℕ, 1 ≤ s →
      ret exJump s 0 = some (if s = 10 then (1 : ℚ) else 0) := by
    intro s hs
    rw [ret, if_neg (by omega),
      show exJump.price s 0 = if s < 10 then 1 else 2 from rfl,
      show exJump.price (s - 1) 0 = if s - 1 < 10 then 1 else 2 from rfl]
    by_cases h1 : s < 10
    · rw [if_pos h1, if_pos (by omega : s - 1 < 10), if_neg (by omega : ¬ s = 10)]
      norm_num
    · by_cases h2 : s = 10
      · subst h2
        norm_num
      · rw [if_neg h1, if_neg (by omega : ¬ s - 1 < 10), if_neg h2]
        norm_num
  have hfull60 : windowFull (fun s => ret exJump s 0) 60 63 = true := by
    rw [windowFull, Bool.and_eq_true]
    refine ⟨by norm_num, ?_⟩
    rw [List.all_eq_true]
    intro j hj
    rw [hret _ (by omega)]
    rfl
  have hfull63 : windowFull (fun s => ret exJump s 0) 63 63 = true := by
    rw [windowFull, Bool.and_eq_true]
    refine ⟨by norm_num, ?_⟩
    rw [List.all_eq_true]
    intro j hj
    rw [hret _ (by omega)]
    rfl
  have hvals60 : windowVals (fun s => ret exJump s 0) 60 63
      = (List.range 60).map fun j => if j = 6 then (1 : ℚ) else 0 := by
    rw [windowVals]
    apply List.map_congr_left
    intro j hj
    rw [List.mem_range] at hj
    rw [hret _ (by omega)]
    simp only [Option.getD_some]
    by_cases h : j = 6
    · subst h
      norm_num
    · rw [if_neg (by omega : ¬ 63 + 1 - 60 + j = 10), if_neg h]
  have hvals63 : windowVals (fun s => ret exJump s 0) 63 63
      = (List.range 63).map fun j => if j = 9 then (1 : ℚ) else 0 := by
    rw [windowVals]
    apply List.map_congr_left
    intro j hj
    rw [List.mem_range] at hj
    rw [hret _ (by omega)]
    simp only [Option.getD_some]
    by_cases h : j = 9
    · subst h
      norm_num
    · rw [if_neg (by omega : ¬ 63 + 1 - 63 + j = 10), if_neg h]
  have hvol : volRaw exJump 63 0 = some (1 / 60) := by
    rw [volRaw, show exJump.volWindow = 60 from rfl, rollingStd,
      if_pos ⟨by norm_num, hfull60⟩, hvals60,
      sampleVarList_indicator 60 6 (by norm_num) (by norm_num)]
    rfl
  have hvolnz : volNZ exJump 63 0 = some (1 / 60) := by
    rw [volNZ, hvol]
    norm_num
  have hmomr : momReturns exJump 63 0 = some 1 := by
    rw [momReturns, if_pos (by decide : exJump.momWindow ≤ 63),
      show exJump.price 63 0 = 2 from rfl,
      show exJump.price (63 - exJump.momWindow) 0 = 1 from rfl]
    norm_num
  have hmv : momVol exJump 63 0 = some (1 / 63) := by
    rw [momVol, show exJump.momWindow = 63 from rfl, rollingStd,
      if_pos ⟨by norm_num, hfull63⟩, hvals63,
      sampleVarList_indicator 63 9 (by norm_num) (by norm_num)]
    rfl
  have hsig : momSignal exJump 63 0 = 1 := by
    unfold momSignal
    rw [hmomr, hmv]
    rw [show exJump.sqrtQ = fun x => x from rfl,
      show exJump.momWindow = 63 from rfl]
    norm_num
  have hconf2 : confAdj exJump 63 0 = 3 / 20 := by
    rw [confAdj, confidence, show exJump.pred 63 0 = some (1 / 2) from rfl, hsig]
    norm_num [show exJump.tanhQ = fun x => x from rfl]
  have hraw : rawW exJump 63 0 = some 9 := by
    rw [rawW, hvolnz]
    show some (confAdj exJump 63 0 / (1 / 60)) = some 9
    rw [hconf2]
    norm_num
  have hpos : posW exJump 63 0 = 9 := by
    unfold posW
    rw [hraw]
    norm_num
  have hrs : rowSum exJump 63 = 9 := by
    rw [rowSum, Fin.sum_univ_one, hpos]
  have htwn : twNorm exJump 63 0 = 1 := by
    rw [twNorm, rowSumSafe, hrs, hpos]
    norm_num
  have hfb : fallbackDay exJump 63 = false := by
    rw [fallbackDay, Fin.sum_univ_one, htwn]
    simp
  have hfall : twFall exJump 63 0 = 1 := by
    rw [twFall, hfb]
    simp [htwn]
  have hars : assetRowSum exJump 63 = 1 := by
    rw [assetRowSum, Fin.sum_univ_one, hfall]
  refine ⟨fun _ _ => rfl, hconf2, by rw [hconf2]; norm_num, hfb, ?_⟩
  rw [twFinal, hfall, hars]
  norm_num

/-- If the zero-excluded volatility is present it is positive (given a
square root that is nonnegative, as `np.sqrt` is on the nonnegative
floats it receives here). -/
theorem volNZ_pos {X : PCInput m} {t : ℕ} {a : Fin m} {vl : ℚ}
    (hsqrt : ∀ x, 0 ≤ X.sqrtQ x) (h : volNZ X t a = some vl) : 0 < vl := by
  rw [volNZ] at h
  cases hv : volRaw X t a with
  | none => rw [hv] at h; simp at h
  | some v0 =>
    rw [hv] at h
    have h2 : (if v0 = 0 then none else some v0) = some vl := h
    split at h2
    · simp at h2
    · rename_i hne
      simp only [Option.some.injEq] at h2
      rw [← h2]
      rw [volRaw, rollingStd] at hv
      split at hv
      · simp only [Option.some.injEq] at hv
        have h0 : 0 ≤ v0 := hv ▸ hsqrt _
        exact lt_of_le_of_ne h0 (Ne.symm hne)
      · simp at hv

/-- Claim C8 amended: when every asset's prediction at a date is exactly
0.5 the raw confidence scores (`prediction - 0.5`) are 0, but the
momentum overlay may still move the adjusted scores; when the adjusted
scores are moreover all nonpositive (e.g. the overlay vanishes), no
positive volatility-scaled weight exists, the fallback triggers, and the
date equal-weights the `nlargest`-ranked top `min 3 m` assets with
`1/(min 3 m)` each — on an all-tied row these are the first `min 3 m`
assets in column order. -/
theorem neutral_predictions_fallback {m : ℕ} (X : PCInput m) (t : ℕ)
    (hm : 1 ≤ m)
    (hpred : ∀ a, X.pred t a = some (1 / 2))
    (hconf : ∀ a, confAdj X t a ≤ 0)
    (hsqrt : ∀ x, 0 ≤ X.sqrtQ x) :
    (∀ a, confidence X t a = some 0)
    ∧ fallbackDay X t = true
    ∧ (topAssets X t).length = min 3 m
    ∧ (∀ a, twFinal X t a =
        if a ∈ topAssets X t then 1 / (((min 3 m : ℕ) : ℚ)) else 0)
    ∧ ((∀ a b, confAdj X t a = confAdj X t b) →
        topAssets X t = (List.finRange m).take 3) := by
  have hpos0 : ∀ a, posW X t a = 0 := by
    intro a
    unfold posW
    cases hr : rawW X t a with
    | none => rfl
    | some x =>
      dsimp only
      rw [if_neg]
      rw [rawW] at hr
      cases hv : volNZ X t a with
      | none => rw [hv] at hr; simp at hr
      | some vl =>
        rw [hv] at hr
        have hr2 : some (confAdj X t a / vl) = some x := hr
        have hr3 : confAdj X t a / vl = x := Option.some.inj hr2
        have hvl : 0 < vl := volNZ_pos hsqrt hv
        have hx : x ≤ 0 := by
          rw [← hr3]
          exact div_nonpos_iff.2 (Or.inr ⟨hconf a, le_of_lt hvl⟩)
        exact not_lt.2 hx
  have hrs : rowSum X t = 0 := by
    rw [rowSum]
    exact Finset.sum_eq_zero fun a _ => hpos0 a
  have hz : (∑ a, twNorm X t a) = 0 := by
    rw [sum_twNorm, hrs, zero_div]
  have hfb : fallbackDay X t = true := by
    simp [fallbackDay, hz]
  have hlen : (topAssets X t).length = min 3 m := by
    rw [topAssets, nlargestIdx_length, List.length_finRange, maxPositions]
    omega
  have hars : assetRowSum X t = 1 := assetRowSum_eq_one X t hm
  refine ⟨?_, hfb, hlen, ?_, ?_⟩
  · intro a
    rw [confidence, hpred a]
    norm_num
  · intro a
    rw [twFinal, hars, div_one, twFall, hfb]
    simp only [if_true]
    rw [fallbackAlloc, hlen]
  · intro hties
    rw [topAssets, nlargestIdx_const hties]
    rw [List.take_eq_take]
    rw [List.length_finRange]
    rw [maxPositions]
    omega

/-- Two assets, constant prices, all predictions 0.5, at the
repository's real windows (momentum lookback 63, volatility window 60):
the momentum overlay vanishes and the 60-day volatility is zero, so the
amended C8 applies concretely on date 63. -/
def exFlat : PCInput 2 :=
  ⟨fun _ _ => some (1 / 2), fun _ _ => 1, 63, 60, fun x => x, fun x => |x|⟩

/-- Witness for the amended C8 at the flat two-asset input. -/
theorem neutral_predictions_fallback_witness :
    (∀ a, confidence exFlat 63 a = some 0)
    ∧ fallbackDay exFlat 63 = true
    ∧ (topAssets exFlat 63).length = min 3 2
    ∧ (∀ a, twFinal exFlat 63 a =
        if a ∈ topAssets exFlat 63 then 1 / (((min 3 2 : ℕ) : ℚ)) else 0)
    ∧ ((∀ a b, confAdj exFlat 63 a = confAdj exFlat 63 b) →
        topAssets exFlat 63 = (List.finRange 2).take 3) := by
  refine neutral_predictions_fallback exFlat 63 (by norm_num) (fun _ => rfl)
    ?_ (fun x => abs_nonneg x)
  intro a
  have hret0 : ∀ s : ℕ, 1 ≤ s → ret exFlat s a = some 0 := by
    intro s hs
    rw [ret, if_neg (by omega),
      show exFlat.price s a = 1 from rfl,
      show exFlat.price (s - 1) a = 1 from rfl]
    norm_num
  have hfull63 : windowFull (fun s => ret exFlat s a) 63 63 = true := by
    rw [windowFull, Bool.and_eq_true]
    refine ⟨by norm_num, ?_⟩
    rw [List.all_eq_true]
    intro j hj
    rw [hret0 _ (by omega)]
    rfl
  have hvals63 : windowVals (fun s => ret exFlat s a) 63 63
      = (List.range 63).map fun _ => (0 : ℚ) := by
    rw [windowVals]
    apply List.map_congr_left
    intro j hj
    rw [hret0 _ (by omega)]
    rfl
  have hmv : momVol exFlat 63 a = some 0 := by
    rw [momVol, show exFlat.momWindow = 63 from rfl, rollingStd,
      if_pos ⟨by norm_num, hfull63⟩, hvals63, sampleVarList_zero 63]
    simp [show exFlat.sqrtQ = fun x => |x| from rfl]
  have hmr : momReturns exFlat 63 a = some 0 := by
    rw [momReturns, if_pos (by decide : exFlat.momWindow ≤ 63),
      show exFlat.price 63 a = 1 from rfl,
      show exFlat.price (63 - exFlat.momWindow) a = 1 from rfl]
    norm_num
  have hsig : momSignal exFlat 63 a = 0 := by
    unfold momSignal
    rw [hmr, hmv]
    norm_num
  rw [confAdj, confidence, show exFlat.pred 63 a = some (1 / 2) from rfl, hsig]
  norm_num [show exFlat.tanhQ = fun x => x from rfl]

end Cassandra

/-! ## Walk-forward model (`src/modeling.py`, `generate_predictions`)

The inner per-asset loop is embedded over the cleaned per-asset table
`clean_data` (`data.dropna(how='any')`): a list of fully-present rows,
each holding the feature vector and the binary outcome label of one
date.  Because every row is complete, the loop's `current_row.isna()`
guard can never fire and is not represented.  The fitted
`RandomForestClassifier` has a fixed `random_state`, so
`fit(X_train, y_train).predict_proba(row)[0][1]` is a deterministic
function of the training slice and the queried feature row; it is
abstracted as the input's `predictProba` parameter. -/

namespace Cassandra

namespace WalkForward

/-- One cleaned row: the date's feature vector and its binary target. -/
structure WFRow where
  features : List ℚ
  target : Bool

structure WFInput where
  /-- `self.train_window`. -/
  train_window : ℕ
  /-- `self.retrain_every`. -/
  retrain_every : ℕ
  /-- `self.min_train_window`. -/
  min_train_window : ℕ
  /-- `RandomForestClassifier(**params).fit(history).predict_proba(row)[0][1]`,
  a deterministic function of the training slice and the feature row. -/
  predictProba : List WFRow → List ℚ → ℚ

/-- The loop state: `last_retrain_day` (`none` encodes the initial `-1`)
and the current model, represented by the slice it was fitted on. -/
structure WFState where
  lastRetrain : Option ℕ
  model : Option (List WFRow)

/-- `last_retrain_day = -1`, `model = None` before the walk. -/
def initState : WFState := ⟨none, none⟩

/-- `history = clean_data.iloc[max(0, i - train_window):i]`. -/
def wfWindow (W : WFInput) (rows : List WFRow) (i : ℕ) : List WFRow :=
  (rows.take i).drop (i - W.train_window)

/-- `(last_retrain_day == -1) or (i >= last_retrain_day + retrain_every)
or model is None`. -/
def retrainDue (W : WFInput) (i : ℕ) (s : WFState) : Bool :=
  match s.lastRetrain, s.model with
  | none, _ => true
  | some _, none => true
  | some l, some _ => decide (l + W.retrain_every ≤ i)

/-- `y_train.nunique()` (the labels are binary). -/
def numClasses (l : List WFRow) : ℕ := (l.map WFRow.target).dedup.length

/-- The feature row handed to `predict_proba`:
`clean_data.drop(columns=[target_col]).iloc[[i]]`. -/
def featuresAt (rows : List WFRow) (i : ℕ) : List ℚ :=
  (rows.getD i ⟨[], false⟩).features

/-- One iteration of the walk-forward loop: returns the updated state
and the prediction emitted at step `i` (if any).  The single-class
branch `continue`s before inference; the unreachable `none` inference
branch (retraining is always due when no model is held) returns no
prediction. -/
def wfStep (W : WFInput) (rows : List WFRow) (i : ℕ) (s : WFState) :
    WFState × Option ℚ :=
  if (wfWindow W rows i).length < W.min_train_window then (s, none)
  else if retrainDue W i s then
    if numClasses (wfWindow W rows i) < 2 then (s, none)
    else (⟨some i, some (wfWindow W rows i)⟩,
      some (W.predictProba (wfWindow W rows i) (featuresAt rows i)))
  else
    match s.model with
    | some h => (s, some (W.predictProba h (featuresAt rows i)))
    | none => (s, none)

/-- The loop state entering step `i`: the loop body runs only for
`min_train_window ≤ j < len(clean_data)`. -/
def wfStateAt (W : WFInput) (rows : List WFRow) : ℕ → WFState
  | 0 => initState
  | i + 1 =>
    if i < W.min_train_window ∨ rows.length ≤ i then wfStateAt W rows i
    else (wfStep W rows i (wfStateAt W rows i)).1

/-- The model prediction recorded in `asset_predictions` at step `i`
(`none` when the loop emits nothing there, leaving the date to the
momentum fallback fill that follows the walk). -/
def wfPredAt (W : WFInput) (rows : List WFRow) (i : ℕ) : Option ℚ :=
  if i < W.min_train_window ∨ rows.length ≤ i then none
  else (wfStep W rows i (wfStateAt W rows i)).2

/-- The training window only reads rows strictly before `i`. -/
theorem wfWindow_congr (W : WFInput) {r1 r2 : List WFRow} {i : ℕ}
    (h : r1.take i = r2.take i) : wfWindow W r1 i = wfWindow W r2 i := by
  rw [wfWindow, wfWindow, h]

/-- The state update of one step only reads rows strictly before `i`. -/
theorem wfStep_fst_congr (W : WFInput) {r1 r2 : List WFRow} {i : ℕ}
    (h : r1.take i = r2.take i) (s : WFState) :
    (wfStep W r1 i s).1 = (wfStep W r2 i s).1 := by
  by_cases h1 : (wfWindow W r2 i).length < W.min_train_window
  · simp [wfStep, wfWindow_congr W h, h1]
  · by_cases h2 : retrainDue W i s = true
    · by_cases h3 : numClasses (wfWindow W r2 i) < 2
      · simp [wfStep, wfWindow_congr W h, h1, h2, h3]
      · simp [wfStep, wfWindow_congr W h, h1, h2, h3]
    · cases hm : s.model <;>
        simp [wfStep, wfWindow_congr W h, h1, h2, hm]

/-- The loop state entering step `i` only reads rows strictly before
`i`. -/
theorem wfStateAt_congr (W : WFInput) {r1 r2 : List WFRow} {i : ℕ}
    (h : r1.take i = r2.take i) (hl1 : i ≤ r1.length) (hl2 : i ≤ r2.length) :
    ∀ j, j ≤ i → wfStateAt W r1 j = wfStateAt W r2 j := by
  intro j
  induction j with
  | zero => intro _; rfl
  | succ j ih =>
    intro hj
    have hj2 : j < i := by omega
    have hjle : j ≤ i := le_of_lt hj2
    have htj : r1.take j = r2.take j := by
      have e1 : r1.take j = (r1.take i).take j := by
        rw [List.take_take, min_eq_left hjle]
      have e2 : r2.take j = (r2.take i).take j := by
        rw [List.take_take, min_eq_left hjle]
      rw [e1, e2, h]
    have hg1 : ¬ (r1.length ≤ j) := by omega
    have hg2 : ¬ (r2.length ≤ j) := by omega
    rw [wfStateAt, wfStateAt]
    by_cases hc : j < W.min_train_window
    · simp [hc, ih hjle]
    · simp [hc, hg1, hg2, ih hjle, wfStep_fst_congr W htj]

end WalkForward

end Cassandra

namespace Cassandra

open WalkForward

/-- `train_window = 2`, `retrain_every = 1`, `min_train_window = 2`; the
abstract classifier predicts the first feature of the queried row. -/
def exW1 : WFInput := ⟨2, 1, 2, fun _ f => f.headD 0⟩

/-- Two clean datasets agreeing strictly before index 2 but with
different feature values at index 2. -/
def exRowsA : List WFRow := [⟨[0], true⟩, ⟨[0], false⟩, ⟨[1], true⟩]

/-- Same as `exRowsA` except the feature value at index 2. -/
def exRowsB : List WFRow := [⟨[0], true⟩, ⟨[0], false⟩, ⟨[2], true⟩]

/-- Counterexample to claim C1: the walk-forward loop hands the feature
row of date `i` itself to `predict_proba`, so two datasets agreeing on
everything strictly before `i` can emit different predictions at `i`
when their feature rows at `i` differ. -/
theorem prediction_uses_current_features_cex :
    exRowsA.take 2 = exRowsB.take 2
    ∧ 2 < exRowsA.length ∧ 2 < exRowsB.length
    ∧ wfPredAt exW1 exRowsA 2 = some 1
    ∧ wfPredAt exW1 exRowsB 2 = some 2
    ∧ wfPredAt exW1 exRowsA 2 ≠ wfPredAt exW1 exRowsB 2 := by
  refine ⟨rfl, by simp [exRowsA], by simp [exRowsB], rfl, rfl, ?_⟩
  show some (1 : ℚ) ≠ some (2 : ℚ)
  norm_num

/-- Claim C1 amended: the prediction the walk-forward loop emits at step
`i` is computable from the rows strictly before `i` together with the
feature row at `i` (labels at `i` and all rows after `i` never matter):
datasets agreeing on those agree on the emitted prediction. -/
theorem prediction_no_lookahead (W : WFInput) (r1 r2 : List WFRow) (i : ℕ)
    (hpast : r1.take i = r2.take i)
    (hfeat : featuresAt r1 i = featuresAt r2 i)
    (hl1 : i < r1.length) (hl2 : i < r2.length) :
    wfPredAt W r1 i = wfPredAt W r2 i := by
  rw [wfPredAt, wfPredAt]
  by_cases hc : i < W.min_train_window
  · simp [hc]
  · have hg1 : ¬ (i < W.min_train_window ∨ r1.length ≤ i) := by omega
    have hg2 : ¬ (i < W.min_train_window ∨ r2.length ≤ i) := by omega
    rw [if_neg hg1, if_neg hg2]
    rw [wfStateAt_congr W hpast (le_of_lt hl1) (le_of_lt hl2) i (le_refl i)]
    rw [wfStep, wfStep, wfWindow_congr W hpast, hfeat]

/-- Same first two rows and the same feature row at index 2 as
`exRowsA`, but a flipped label at index 2 and an extra later row. -/
def exRowsC : List WFRow :=
  [⟨[0], true⟩, ⟨[0], false⟩, ⟨[1], false⟩, ⟨[9], true⟩]

/-- Witness for the amended C1: perturbing the label at index 2 and the
data after it leaves the prediction at 2 unchanged. -/
theorem prediction_no_lookahead_witness :
    exRowsA.take 2 = exRowsC.take 2
    ∧ featuresAt exRowsA 2 = featuresAt exRowsC 2
    ∧ wfPredAt exW1 exRowsA 2 = wfPredAt exW1 exRowsC 2 :=
  ⟨rfl, rfl,
    prediction_no_lookahead exW1 exRowsA exRowsC 2 rfl rfl
      (by simp [exRowsA]) (by simp [exRowsC])⟩

/-- `train_window = 2`, `retrain_every = 2`, `min_train_window = 2`; the
abstract classifier predicts the first feature of the queried row. -/
def exW6 : WFInput := ⟨2, 2, 2, fun _ f => f.headD 0⟩

/-- Labels `[true, false, true, true, true]`: the walk fits at step 2,
infers with the held model at step 3, and meets a single-class window at
step 4 where a retrain is due. -/
def exRows6 : List WFRow :=
  [⟨[0], true⟩, ⟨[1], false⟩, ⟨[2], true⟩, ⟨[3], true⟩, ⟨[4], true⟩]

/-- Counterexample to claim C6: at step 4 of `exRows6` a retrain is due
and the window is single-class while a previously trained model is held;
the loop `continue`s, so no prediction is emitted at step 4 at all — the
stale model is not used for inference there (it was still used at the
non-retrain step 3). -/
theorem single_class_no_inference_cex :
    retrainDue exW6 4 (wfStateAt exW6 exRows6 4) = true
    ∧ numClasses (wfWindow exW6 exRows6 4) = 1
    ∧ (wfStateAt exW6 exRows6 4).model = some [⟨[0], true⟩, ⟨[1], false⟩]
    ∧ wfPredAt exW6 exRows6 4 = none
    ∧ wfPredAt exW6 exRows6 3 = some 3 :=
  ⟨rfl, rfl, rfl, rfl, rfl⟩

/-- Claim C6 amended: when a retrain is due at step `i` but the training
window holds a single label class, the whole step is skipped: the
previous model and retrain marker are retained unchanged, and no model
prediction is emitted at `i` — the date is left missing, to be filled by
the momentum fallback after the walk (the retained model is used again
only at steps where no retrain is due). -/
theorem single_class_skips_step (W : WFInput) (rows : List WFRow) (i : ℕ)
    (hguard : W.min_train_window ≤ i ∧ i < rows.length)
    (hlen : W.min_train_window ≤ (wfWindow W rows i).length)
    (hdue : retrainDue W i (wfStateAt W rows i) = true)
    (hsingle : numClasses (wfWindow W rows i) < 2) :
    wfStateAt W rows (i + 1) = wfStateAt W rows i
    ∧ wfPredAt W rows i = none := by
  obtain ⟨hg1, hg2⟩ := hguard
  have hnot : ¬ ((wfWindow W rows i).length < W.min_train_window) :=
    not_lt.2 hlen
  have hg : ¬ (i < W.min_train_window ∨ rows.length ≤ i) := by omega
  constructor
  · rw [wfStateAt, if_neg hg, wfStep, if_neg hnot, if_pos hdue, if_pos hsingle]
  · rw [wfPredAt, if_neg hg, wfStep, if_neg hnot, if_pos hdue, if_pos hsingle]

/-- Witness for the amended C6 at step 4 of `exRows6`. -/
theorem single_class_skips_step_witness :
    wfStateAt exW6 exRows6 5 = wfStateAt exW6 exRows6 4
    ∧ wfPredAt exW6 exRows6 4 = none :=
  single_class_skips_step exW6 exRows6 4 (by constructor <;> decide)
    (by decide) rfl (by decide)

end Cassandra
